import Mathlib

/-!
Verification of the capsule codec and CONNECT-UDP frame adapter of
`neqo-http3` (`src/neqo-http3/src/frames/capsule.rs` and
`src/neqo-http3/src/frames/connect_udp_frame.rs`).

Bytes are modelled as `Nat` (with values `< 256` on real inputs; none of the
decode paths interprets payload bytes, so statements quantify over arbitrary
`Nat` lists where the bound is not needed).  The `neqo_common::Decoder` /
`Encoder` primitives are not part of the two source files; they are modelled
from the spec's varint contract (§6: "standard two-high-bit length prefix
variable-length integer encoding capable of representing values up to
2^62−1", i.e. the QUIC variable-length integer).
-/

namespace Neqo

/-- Modelled from the spec: `neqo_common::Decoder`, a position-tracking read
cursor over a byte buffer (§GLOSSARY "Cursor").  `buf` is the underlying
byte slice, `offset` the current read position. -/
structure Decoder where
  buf : List Nat
  offset : Nat
deriving DecidableEq, Repr

/-- A fresh decoder over a byte slice (`Decoder::from(&data[..])`). -/
def Decoder.fromList (bs : List Nat) : Decoder := ⟨bs, 0⟩

/-- Modelled from the spec: `Decoder::remaining`, the number of bytes not yet
consumed. -/
def Decoder.remaining (d : Decoder) : Nat := d.buf.length - d.offset

/-- The not-yet-consumed suffix of the buffer (the bytes `remaining` counts). -/
def Decoder.rest (d : Decoder) : List Nat := d.buf.drop d.offset

/-- Modelled from the spec: reading one byte at the cursor, advancing it;
`none` when the buffer is exhausted. -/
def Decoder.readByte (d : Decoder) : Option (Nat × Decoder) :=
  match d.rest with
  | [] => none
  | b :: _ => some (b, ⟨d.buf, d.offset + 1⟩)

/-- Big-endian accumulation of `n` further bytes onto `acc`; `none` when
fewer than `n` bytes remain.  Helper for `Decoder.decodeVarint`. -/
def Decoder.readBE : Decoder → Nat → Nat → Option (Nat × Decoder)
  | d, 0, acc => some (acc, d)
  | d, n + 1, acc =>
    match d.readByte with
    | none => none
    | some (b, d1) => Decoder.readBE d1 n (acc * 256 + b)

/-- Modelled from the spec: `Decoder::decode_varint`, the QUIC variable-length
integer.  The top two bits of the first byte select a total length of
`2 ^ (b / 64)` bytes (1, 2, 4 or 8); the remaining six bits and the following
bytes hold the value big-endian.  `none` when too few bytes remain. -/
def Decoder.decodeVarint (d : Decoder) : Option (Nat × Decoder) :=
  match d.readByte with
  | none => none
  | some (b1, d1) => d1.readBE (2 ^ (b1 / 64) - 1) (b1 % 64)

/-- Modelled from the spec: `Decoder::decode(n)`, extracting the next `n`
bytes and advancing the cursor; `none` when fewer than `n` bytes remain. -/
def Decoder.decode (d : Decoder) (n : Nat) : Option (List Nat × Decoder) :=
  if d.remaining < n then none
  else some (d.rest.take n, ⟨d.buf, d.offset + n⟩)

/-- Modelled from the spec: `Decoder::skip(n)`, advancing the cursor past `n`
bytes (only called after a `remaining` check in the source). -/
def Decoder.skip (d : Decoder) (n : Nat) : Decoder := ⟨d.buf, d.offset + n⟩

/-- Modelled from the spec: `Encoder::encode_varint`, the minimal QUIC varint
encoding of `v` (defined for `v < 2 ^ 62`). -/
def encodeVarint (v : Nat) : List Nat :=
  if v < 2 ^ 6 then [v]
  else if v < 2 ^ 14 then [2 ^ 6 + v / 2 ^ 8, v % 2 ^ 8]
  else if v < 2 ^ 30 then
    [2 ^ 7 + v / 2 ^ 24, v / 2 ^ 16 % 2 ^ 8, v / 2 ^ 8 % 2 ^ 8, v % 2 ^ 8]
  else
    [3 * 2 ^ 6 + v / 2 ^ 56, v / 2 ^ 48 % 2 ^ 8, v / 2 ^ 40 % 2 ^ 8,
      v / 2 ^ 32 % 2 ^ 8, v / 2 ^ 24 % 2 ^ 8, v / 2 ^ 16 % 2 ^ 8,
      v / 2 ^ 8 % 2 ^ 8, v % 2 ^ 8]

/-- `capsule.rs`: `pub const CAPSULE_TYPE_DATAGRAM: u64 = 0x00;` -/
def CAPSULE_TYPE_DATAGRAM : Nat := 0x00

/-- `capsule.rs`: `enum Capsule { Datagram { payload: Bytes } }`. -/
inductive Capsule where
  | Datagram (payload : List Nat)
deriving DecidableEq, Repr

/-- `crate::Error`; only the `HttpFrame` variant is reachable from the two
source files. -/
inductive Error where
  | HttpFrame
deriving DecidableEq, Repr

/-- `capsule.rs`: `Capsule::capsule_type`. -/
def Capsule.capsule_type : Capsule → Nat
  | .Datagram _ => CAPSULE_TYPE_DATAGRAM

/-- `capsule.rs`: `Capsule::encode` — varint type tag, then `encode_vvec`
(varint length followed by the payload bytes). -/
def Capsule.encode (c : Capsule) : List Nat :=
  match c with
  | .Datagram payload =>
    encodeVarint c.capsule_type ++ (encodeVarint payload.length ++ payload)

/-- `usize::MAX` on the 64-bit targets the crate is built for; kept as a named
constant so that `Capsule.decode` can also be studied at other platform
widths. -/
def USIZE_MAX : Nat := 2 ^ 64 - 1

/-- `capsule.rs`: `Capsule::decode`.  `usizeMax` is the platform's
`usize::MAX`, so `usizeMax < capsule_length` is exactly the overflow of
`usize::try_from(capsule_length)`.  The decoder is passed and returned by
value, mirroring the `&mut Decoder` argument; on the `Ok(None)` early
returns the original decoder stands in for the partially advanced Rust
cursor, whose position is unobservable there (spec §4.1: "cursor left at its
original read position conceptually"). -/
def Capsule.decode (usizeMax : Nat) (d : Decoder) :
    Except Error (Option Capsule × Decoder) :=
  match d.decodeVarint with
  | none => .ok (none, d)
  | some (capsule_type, d1) =>
    match d1.decodeVarint with
    | none => .ok (none, d1)
    | some (capsule_length, d2) =>
      if usizeMax < capsule_length then .error .HttpFrame
      else if d2.remaining < capsule_length then .ok (none, d2)
      else if capsule_type = CAPSULE_TYPE_DATAGRAM then
        match d2.decode capsule_length with
        | none => .error .HttpFrame
        | some (payload, d3) => .ok (some (.Datagram payload), d3)
      else .ok (none, d2.skip capsule_length)

/-- `hframe.rs`: `HFrameType`, an opaque numeric frame-type identifier. -/
structure HFrameType where
  val : Nat
deriving DecidableEq, Repr

namespace ConnectUdp

/-- `connect_udp_frame.rs`:
`pub const CAPSULE_TYPE_DATAGRAM: HFrameType = HFrameType(0x00);` -/
def CAPSULE_TYPE_DATAGRAM : HFrameType := ⟨0x00⟩

/-- `connect_udp_frame.rs`: `enum Frame { Datagram { payload: Bytes } }`. -/
inductive Frame where
  | Datagram (payload : List Nat)
deriving DecidableEq, Repr

/-- `connect_udp_frame.rs`: `<Frame as FrameDecoder<Frame>>::decode`.
`usizeMax` is threaded through to `Capsule.decode`; `_frame_len` is the
`_frame_len: u64` argument the source ignores. -/
def Frame.decode (usizeMax : Nat) (frame_type : HFrameType) (_frame_len : Nat)
    (data : Option (List Nat)) : Except Error (Option Frame) :=
  if frame_type = CAPSULE_TYPE_DATAGRAM then
    match data with
    | some payload =>
      match Capsule.decode usizeMax (Decoder.fromList payload) with
      | .error e => .error e
      | .ok (some (.Datagram payload), _) => .ok (some (.Datagram payload))
      | .ok (none, _) => .ok none
    | none => .ok none
  else .ok none

/-- `connect_udp_frame.rs`: `<Frame as FrameDecoder<Frame>>::is_known_type`. -/
def Frame.is_known_type (frame_type : HFrameType) : Bool :=
  frame_type = CAPSULE_TYPE_DATAGRAM

end ConnectUdp

/-! ### Cursor lemmas -/

theorem Decoder.remaining_eq_rest_length (d : Decoder) :
    d.remaining = d.rest.length := by
  simp [Decoder.remaining, Decoder.rest]

theorem Decoder.rest_advance {d : Decoder} {pre tail : List Nat}
    (h : d.rest = pre ++ tail) :
    (Decoder.mk d.buf (d.offset + pre.length)).rest = tail := by
  simp only [Decoder.rest] at h ⊢
  rw [← List.drop_drop, h, List.drop_left]

theorem Decoder.readByte_of_rest_cons {d : Decoder} {b : Nat} {t : List Nat}
    (h : d.rest = b :: t) :
    d.readByte = some (b, ⟨d.buf, d.offset + 1⟩) ∧
      (Decoder.mk d.buf (d.offset + 1)).rest = t := by
  refine ⟨by simp [Decoder.readByte, h], ?_⟩
  have := Decoder.rest_advance (show d.rest = [b] ++ t by simpa using h)
  simpa using this

/-- Big-endian accumulation, as a function on byte lists. -/
def beVal (acc : Nat) (bs : List Nat) : Nat :=
  bs.foldl (fun a b => a * 256 + b) acc

theorem Decoder.readBE_of_rest {bs : List Nat} :
    ∀ {d : Decoder} {tail : List Nat} {acc : Nat}, d.rest = bs ++ tail →
      d.readBE bs.length acc =
        some (beVal acc bs, ⟨d.buf, d.offset + bs.length⟩) := by
  induction bs with
  | nil =>
    intro d tail acc h
    simp [Decoder.readBE, beVal]
  | cons b bs ih =>
    intro d tail acc h
    obtain ⟨h1, h2⟩ := Decoder.readByte_of_rest_cons
      (t := bs ++ tail) (by simpa using h)
    simp only [List.length_cons, Decoder.readBE, h1]
    rw [ih h2]
    have h3 : d.offset + 1 + bs.length = d.offset + (bs.length + 1) := by omega
    simp [beVal, h3]

theorem Decoder.readBE_none :
    ∀ (n : Nat) (d : Decoder) (acc : Nat), d.remaining < n →
      d.readBE n acc = none := by
  intro n
  induction n with
  | zero => intro d acc h; omega
  | succ n ih =>
    intro d acc h
    match hr : d.rest with
    | [] => simp [Decoder.readBE, Decoder.readByte, hr]
    | b :: t =>
      obtain ⟨h1, h2⟩ := Decoder.readByte_of_rest_cons hr
      simp only [Decoder.readBE, h1]
      apply ih
      rw [Decoder.remaining_eq_rest_length, h2]
      rw [Decoder.remaining_eq_rest_length, hr] at h
      simp at h
      omega

/-! ### Varint lemmas -/

theorem Decoder.decodeVarint_none_of_rest_nil {d : Decoder} (h : d.rest = []) :
    d.decodeVarint = none := by
  simp [Decoder.decodeVarint, Decoder.readByte, h]

theorem Decoder.decodeVarint_none_of_short {d : Decoder} {b : Nat}
    {t : List Nat} (h : d.rest = b :: t)
    (hshort : t.length < 2 ^ (b / 64) - 1) :
    d.decodeVarint = none := by
  obtain ⟨h1, h2⟩ := Decoder.readByte_of_rest_cons h
  simp only [Decoder.decodeVarint, h1]
  apply Decoder.readBE_none
  rw [Decoder.remaining_eq_rest_length, h2]
  exact hshort

theorem Decoder.decodeVarint_spec {d : Decoder} (b1 : Nat) (bs tail : List Nat)
    (h : d.rest = b1 :: (bs ++ tail)) (hlen : bs.length = 2 ^ (b1 / 64) - 1) :
    d.decodeVarint =
      some (beVal (b1 % 64) bs, ⟨d.buf, d.offset + 1 + bs.length⟩) := by
  obtain ⟨h1, h2⟩ := Decoder.readByte_of_rest_cons h
  simp only [Decoder.decodeVarint, h1]
  rw [← hlen]
  exact Decoder.readBE_of_rest h2

/-- Decoding at the front of a minimally encoded varint recovers the value
and advances the cursor by exactly the encoding's byte length. -/
theorem Decoder.decodeVarint_of_encode {v : Nat} (hv : v < 2 ^ 62)
    {d : Decoder} (tail : List Nat) (h : d.rest = encodeVarint v ++ tail) :
    d.decodeVarint =
      some (v, ⟨d.buf, d.offset + (encodeVarint v).length⟩) := by
  by_cases h1 : v < 2 ^ 6
  · rw [encodeVarint, if_pos h1] at h ⊢
    have hs := Decoder.decodeVarint_spec v [] tail
      (by simpa using h)
      (by
        have hq : v / 64 = 0 := by omega
        rw [hq]
        simp)
    rw [hs]
    simp only [List.length_cons, List.length_nil, Option.some.injEq,
      Prod.mk.injEq, Decoder.mk.injEq, beVal, List.foldl, and_true,
      true_and]
    omega
  · by_cases h2 : v < 2 ^ 14
    · rw [encodeVarint, if_neg h1, if_pos h2] at h ⊢
      have hs := Decoder.decodeVarint_spec (2 ^ 6 + v / 2 ^ 8)
        [v % 2 ^ 8] tail (by simpa using h)
        (by
          have hq : (2 ^ 6 + v / 2 ^ 8) / 64 = 1 := by omega
          rw [hq]
          simp)
      rw [hs]
      simp only [List.length_cons, List.length_nil, Option.some.injEq,
        Prod.mk.injEq, Decoder.mk.injEq, beVal, List.foldl, and_true,
        true_and]
      omega
    · by_cases h3 : v < 2 ^ 30
      · rw [encodeVarint, if_neg h1, if_neg h2, if_pos h3] at h ⊢
        have hs := Decoder.decodeVarint_spec (2 ^ 7 + v / 2 ^ 24)
          [v / 2 ^ 16 % 2 ^ 8, v / 2 ^ 8 % 2 ^ 8, v % 2 ^ 8]
          tail (by simpa using h)
          (by
            have hq : (2 ^ 7 + v / 2 ^ 24) / 64 = 2 := by omega
            rw [hq]
            simp)
        rw [hs]
        simp only [List.length_cons, List.length_nil, Option.some.injEq,
          Prod.mk.injEq, Decoder.mk.injEq, beVal, List.foldl, and_true,
          true_and]
        omega
      · rw [encodeVarint, if_neg h1, if_neg h2, if_neg h3] at h ⊢
        have hs := Decoder.decodeVarint_spec (3 * 2 ^ 6 + v / 2 ^ 56)
          [v / 2 ^ 48 % 2 ^ 8, v / 2 ^ 40 % 2 ^ 8, v / 2 ^ 32 % 2 ^ 8,
            v / 2 ^ 24 % 2 ^ 8, v / 2 ^ 16 % 2 ^ 8, v / 2 ^ 8 % 2 ^ 8,
            v % 2 ^ 8]
          tail (by simpa using h)
          (by
            have hq : (3 * 2 ^ 6 + v / 2 ^ 56) / 64 = 3 := by omega
            rw [hq]
            simp)
        rw [hs]
        simp only [List.length_cons, List.length_nil, Option.some.injEq,
          Prod.mk.injEq, Decoder.mk.injEq, beVal, List.foldl, and_true,
          true_and]
        omega

/-- A strict prefix of a minimally encoded varint, with nothing after it,
does not decode: the first byte's two top bits demand more bytes than
remain. -/
theorem Decoder.decodeVarint_none_of_encode_take {v k : Nat}
    (hv : v < 2 ^ 62) (hk : k < (encodeVarint v).length) {d : Decoder}
    (h : d.rest = (encodeVarint v).take k) :
    d.decodeVarint = none := by
  by_cases h1 : v < 2 ^ 6
  · rw [encodeVarint, if_pos h1] at hk h
    have hk0 : k = 0 := by simp at hk; omega
    subst hk0
    exact Decoder.decodeVarint_none_of_rest_nil (by simpa using h)
  · by_cases h2 : v < 2 ^ 14
    · rw [encodeVarint, if_neg h1, if_pos h2] at hk h
      match k with
      | 0 => exact Decoder.decodeVarint_none_of_rest_nil (by simpa using h)
      | j + 1 =>
        rw [List.take_succ_cons] at h
        refine Decoder.decodeVarint_none_of_short h ?_
        have hq : (2 ^ 6 + v / 2 ^ 8) / 64 = 1 := by omega
        rw [List.length_take, hq]
        simp at hk ⊢
        omega
    · by_cases h3 : v < 2 ^ 30
      · rw [encodeVarint, if_neg h1, if_neg h2, if_pos h3] at hk h
        match k with
        | 0 => exact Decoder.decodeVarint_none_of_rest_nil (by simpa using h)
        | j + 1 =>
          rw [List.take_succ_cons] at h
          refine Decoder.decodeVarint_none_of_short h ?_
          have hq : (2 ^ 7 + v / 2 ^ 24) / 64 = 2 := by omega
          rw [List.length_take, hq]
          simp at hk ⊢
          omega
      · rw [encodeVarint, if_neg h1, if_neg h2, if_neg h3] at hk h
        match k with
        | 0 => exact Decoder.decodeVarint_none_of_rest_nil (by simpa using h)
        | j + 1 =>
          rw [List.take_succ_cons] at h
          refine Decoder.decodeVarint_none_of_short h ?_
          have hq : (3 * 2 ^ 6 + v / 2 ^ 56) / 64 = 3 := by omega
          rw [List.length_take, hq]
          simp at hk ⊢
          omega

/-! ### Capsule decode unfolding lemmas -/

theorem Decoder.fromList_rest (bs : List Nat) :
    (Decoder.fromList bs).rest = bs := by
  simp [Decoder.fromList, Decoder.rest]

theorem Capsule.decode_none_of_first {usizeMax : Nat} {d : Decoder}
    (h : d.decodeVarint = none) :
    Capsule.decode usizeMax d = .ok (none, d) := by
  simp only [Capsule.decode, h]

theorem Capsule.decode_none_of_second {usizeMax : Nat} {d d1 : Decoder}
    {ty : Nat} (h1 : d.decodeVarint = some (ty, d1))
    (h2 : d1.decodeVarint = none) :
    Capsule.decode usizeMax d = .ok (none, d1) := by
  simp only [Capsule.decode, h1, h2]

theorem Capsule.decode_eq_of_varints {usizeMax : Nat} {d d1 d2 : Decoder}
    {ty len : Nat} (h1 : d.decodeVarint = some (ty, d1))
    (h2 : d1.decodeVarint = some (len, d2)) :
    Capsule.decode usizeMax d =
      if usizeMax < len then .error .HttpFrame
      else if d2.remaining < len then .ok (none, d2)
      else if ty = CAPSULE_TYPE_DATAGRAM then
        match d2.decode len with
        | none => .error .HttpFrame
        | some (payload, d3) => .ok (some (.Datagram payload), d3)
      else .ok (none, d2.skip len) := by
  simp only [Capsule.decode, h1, h2]

/-! ### Claim theorems -/

/-- C1: for every validly encoded capsule (varint type, varint length,
payload of exactly that length), `Capsule::decode` on any strict prefix of
its bytes — type only, type+length only, or type+length+partial payload,
including a split inside a multi-byte varint — returns `Ok(None)`: never an
error and never `Ok(Some _)`. -/
theorem capsule_decode_truncation_safe (ty : Nat) (payload : List Nat)
    (k : Nat) (hty : ty < 2 ^ 62) (hlen : payload.length < 2 ^ 62)
    (hk : k <
      (encodeVarint ty ++ encodeVarint payload.length ++ payload).length) :
    ∃ d', Capsule.decode USIZE_MAX
        (Decoder.fromList
          ((encodeVarint ty ++ encodeVarint payload.length ++ payload).take k))
      = .ok (none, d') := by
  have hrest := Decoder.fromList_rest
    ((encodeVarint ty ++ encodeVarint payload.length ++ payload).take k)
  by_cases hc1 : k < (encodeVarint ty).length
  · have htake :
        (encodeVarint ty ++ encodeVarint payload.length ++ payload).take k
          = (encodeVarint ty).take k := by
      rw [List.take_append_of_le_length (by simp; omega),
        List.take_append_of_le_length (by omega)]
    refine ⟨_, Capsule.decode_none_of_first ?_⟩
    exact Decoder.decodeVarint_none_of_encode_take hty hc1
      (by rw [hrest, htake])
  · by_cases hc2 :
        k < (encodeVarint ty).length + (encodeVarint payload.length).length
    · have htake :
          (encodeVarint ty ++ encodeVarint payload.length ++ payload).take k
            = encodeVarint ty
              ++ (encodeVarint payload.length).take
                  (k - (encodeVarint ty).length) := by
        rw [List.take_append_of_le_length (by simp; omega),
          List.take_append_eq_append_take,
          List.take_of_length_le (by omega)]
      have hv1 := Decoder.decodeVarint_of_encode hty
        ((encodeVarint payload.length).take
          (k - (encodeVarint ty).length))
        (by rw [hrest, htake])
      have hrest1 := Decoder.rest_advance (by rw [hrest, htake])
      have hv2 := Decoder.decodeVarint_none_of_encode_take hlen
        (k := k - (encodeVarint ty).length) (by omega) hrest1
      exact ⟨_, Capsule.decode_none_of_second hv1 hv2⟩
    · have htake :
          (encodeVarint ty ++ encodeVarint payload.length ++ payload).take k
            = encodeVarint ty
              ++ (encodeVarint payload.length
                ++ payload.take (k - ((encodeVarint ty).length
                  + (encodeVarint payload.length).length))) := by
        rw [List.take_append_eq_append_take,
          List.take_of_length_le (by simp; omega)]
        simp [List.append_assoc]
      have hv1 := Decoder.decodeVarint_of_encode hty
        (encodeVarint payload.length
          ++ payload.take (k - ((encodeVarint ty).length
            + (encodeVarint payload.length).length)))
        (by rw [hrest, htake])
      have hrest1 := Decoder.rest_advance (by rw [hrest, htake])
      have hv2 := Decoder.decodeVarint_of_encode hlen
        (payload.take (k - ((encodeVarint ty).length
          + (encodeVarint payload.length).length))) hrest1
      have hrest2 := Decoder.rest_advance hrest1
      simp only [Decoder.fromList, Nat.zero_add] at hv1 hv2 hrest2
      have hov : ¬ (USIZE_MAX < payload.length) := by
        simp only [USIZE_MAX]
        omega
      have hrem : (Decoder.mk
          ((encodeVarint ty ++ encodeVarint payload.length ++ payload).take k)
          ((encodeVarint ty).length
            + (encodeVarint payload.length).length)).remaining
          < payload.length := by
        rw [Decoder.remaining_eq_rest_length, hrest2, List.length_take]
        simp [List.length_append] at hk
        omega
      simp only [Decoder.fromList]
      refine ⟨Decoder.mk
        ((encodeVarint ty ++ encodeVarint payload.length ++ payload).take k)
        ((encodeVarint ty).length + (encodeVarint payload.length).length), ?_⟩
      rw [Capsule.decode_eq_of_varints hv1 hv2, if_neg hov, if_pos hrem]

/-- Decoding a freshly encoded Datagram capsule followed by arbitrary
trailing bytes succeeds, recovers the payload, and advances the cursor to
exactly the end of the capsule. -/
theorem Capsule.decode_encode_append (P T : List Nat)
    (hP : P.length < 2 ^ 62) :
    Capsule.decode USIZE_MAX
        (Decoder.fromList (Capsule.encode (.Datagram P) ++ T))
      = .ok (some (.Datagram P),
          Decoder.mk (Capsule.encode (.Datagram P) ++ T)
            (Capsule.encode (.Datagram P)).length) := by
  have henc : Capsule.encode (.Datagram P)
      = encodeVarint 0 ++ (encodeVarint P.length ++ P) := rfl
  have hre : (Decoder.fromList (Capsule.encode (.Datagram P) ++ T)).rest
      = encodeVarint 0 ++ (encodeVarint P.length ++ (P ++ T)) := by
    rw [Decoder.fromList_rest, henc]
    simp [List.append_assoc]
  have hv1 := Decoder.decodeVarint_of_encode (v := 0) (by norm_num)
    (encodeVarint P.length ++ (P ++ T)) hre
  have hrest1 := Decoder.rest_advance hre
  have hv2 := Decoder.decodeVarint_of_encode hP (P ++ T) hrest1
  have hrest2 := Decoder.rest_advance hrest1
  simp only [Decoder.fromList, Nat.zero_add] at hv1 hv2 hrest1 hrest2
  have hov : ¬ (USIZE_MAX < P.length) := by
    simp only [USIZE_MAX]
    omega
  have hrem : ¬ ((Decoder.mk (Capsule.encode (.Datagram P) ++ T)
      ((encodeVarint 0).length
        + (encodeVarint P.length).length)).remaining < P.length) := by
    rw [Decoder.remaining_eq_rest_length, hrest2]
    simp
  have hdec : (Decoder.mk (Capsule.encode (.Datagram P) ++ T)
      ((encodeVarint 0).length
        + (encodeVarint P.length).length)).decode P.length
      = some (P, Decoder.mk (Capsule.encode (.Datagram P) ++ T)
          ((encodeVarint 0).length + (encodeVarint P.length).length
            + P.length)) := by
    rw [Decoder.decode, if_neg hrem]
    rw [show (Decoder.mk (Capsule.encode (.Datagram P) ++ T)
        ((encodeVarint 0).length + (encodeVarint P.length).length)).rest
      = P ++ T from hrest2]
    rw [List.take_left]
  simp only [Decoder.fromList]
  rw [Capsule.decode_eq_of_varints hv1 hv2, if_neg hov, if_neg hrem,
    if_pos (show (0 : Nat) = CAPSULE_TYPE_DATAGRAM from rfl), hdec]
  simp only [Except.ok.injEq, Option.some.injEq, Prod.mk.injEq,
    Decoder.mk.injEq, henc, List.length_append, true_and, and_true]
  omega

/-- C2: encoding any Datagram capsule (any payload, including empty) and
decoding the result on a fresh decoder yields that same capsule with the
cursor fully consumed (`remaining = 0`). -/
theorem capsule_encode_decode_roundtrip (P : List Nat)
    (hP : P.length < 2 ^ 62) :
    ∃ d', Capsule.decode USIZE_MAX
        (Decoder.fromList (Capsule.encode (.Datagram P)))
      = .ok (some (.Datagram P), d') ∧ d'.remaining = 0 := by
  have h := Capsule.decode_encode_append P [] hP
  rw [List.append_nil] at h
  refine ⟨_, h, ?_⟩
  rw [Decoder.remaining_eq_rest_length]
  simp [Decoder.rest]

/-- C10: decoding a validly encoded Datagram capsule followed by arbitrary
trailing bytes `T` succeeds and leaves the decoder with exactly the bytes
`T` unread and the buffer unmodified. -/
theorem capsule_decode_consumes_exactly_one (P T : List Nat)
    (hP : P.length < 2 ^ 62) :
    ∃ d', Capsule.decode USIZE_MAX
        (Decoder.fromList (Capsule.encode (.Datagram P) ++ T))
      = .ok (some (.Datagram P), d')
      ∧ d'.buf = Capsule.encode (.Datagram P) ++ T ∧ d'.rest = T := by
  refine ⟨_, Capsule.decode_encode_append P T hP, rfl, ?_⟩
  simp [Decoder.rest, List.drop_left]

/-- C3: a fully buffered capsule with a non-zero varint type decodes to
`Ok(None)` and the cursor advances by exactly
`varint(type) + varint(length) + length` bytes, landing at the start of
whatever follows. -/
theorem capsule_decode_unknown_type_skip (ty : Nat) (payload trailing : List Nat)
    (hty0 : ty ≠ 0) (hty : ty < 2 ^ 62) (hlen : payload.length < 2 ^ 62) :
    Capsule.decode USIZE_MAX
        (Decoder.fromList
          (encodeVarint ty ++ encodeVarint payload.length ++ payload
            ++ trailing))
      = .ok (none,
          Decoder.mk
            (encodeVarint ty ++ encodeVarint payload.length ++ payload
              ++ trailing)
            ((encodeVarint ty).length + (encodeVarint payload.length).length
              + payload.length)) := by
  have hre : (Decoder.fromList
      (encodeVarint ty ++ encodeVarint payload.length ++ payload
        ++ trailing)).rest
      = encodeVarint ty
        ++ (encodeVarint payload.length ++ (payload ++ trailing)) := by
    rw [Decoder.fromList_rest]
    simp [List.append_assoc]
  have hv1 := Decoder.decodeVarint_of_encode hty
    (encodeVarint payload.length ++ (payload ++ trailing)) hre
  have hrest1 := Decoder.rest_advance hre
  have hv2 := Decoder.decodeVarint_of_encode hlen (payload ++ trailing) hrest1
  have hrest2 := Decoder.rest_advance hrest1
  simp only [Decoder.fromList, Nat.zero_add] at hv1 hv2 hrest2
  have hov : ¬ (USIZE_MAX < payload.length) := by
    simp only [USIZE_MAX]
    omega
  have hrem : ¬ ((Decoder.mk
      (encodeVarint ty ++ encodeVarint payload.length ++ payload ++ trailing)
      ((encodeVarint ty).length
        + (encodeVarint payload.length).length)).remaining
      < payload.length) := by
    rw [Decoder.remaining_eq_rest_length, hrest2]
    simp
  have htyne : ¬ (ty = CAPSULE_TYPE_DATAGRAM) := by
    simpa [CAPSULE_TYPE_DATAGRAM] using hty0
  simp only [Decoder.fromList]
  rw [Capsule.decode_eq_of_varints hv1 hv2, if_neg hov, if_neg hrem,
    if_neg htyne, Decoder.skip]

/-- C4: if both varints decode but the declared capsule length does not fit
the platform's `usize`, `Capsule::decode` fails with the malformed-encoding
error `Error::HttpFrame` rather than returning `Ok(None)`. -/
theorem capsule_decode_overflow_error (usizeMax : Nat) (d d1 d2 : Decoder)
    (ty len : Nat) (h1 : d.decodeVarint = some (ty, d1))
    (h2 : d1.decodeVarint = some (len, d2)) (hov : usizeMax < len) :
    Capsule.decode usizeMax d = .error .HttpFrame := by
  rw [Capsule.decode_eq_of_varints h1 h2, if_pos hov]

/-- C5: `Frame::is_known_type` holds exactly for the Datagram constant
`HFrameType(0x00)`, and for every other frame type `Frame::decode` returns
`Ok(None)` whatever `frame_len` and `data` are — the payload is never
inspected. -/
theorem frame_adapter_type_filtering :
    (∀ ft : HFrameType, ConnectUdp.Frame.is_known_type ft = true
      ↔ ft = ConnectUdp.CAPSULE_TYPE_DATAGRAM) ∧
    (∀ (usizeMax : Nat) (ft : HFrameType) (frame_len : Nat)
      (data : Option (List Nat)), ft ≠ ConnectUdp.CAPSULE_TYPE_DATAGRAM →
      ConnectUdp.Frame.decode usizeMax ft frame_len data = .ok none) := by
  constructor
  · intro ft
    simp [ConnectUdp.Frame.is_known_type]
  · intro u ft l data hne
    rw [ConnectUdp.Frame.decode.eq_def, if_neg hne]

/-- C8: `Frame::decode` never reads its `_frame_len` argument: its result is
the same for any two declared frame lengths. -/
theorem frame_decode_ignores_frame_len (usizeMax : Nat) (ft : HFrameType)
    (l1 l2 : Nat) (data : Option (List Nat)) :
    ConnectUdp.Frame.decode usizeMax ft l1 data
      = ConnectUdp.Frame.decode usizeMax ft l2 data := rfl

/-- C9: once the `remaining ≥ capsule_length` check has passed, the payload
read cannot fail: a Datagram-typed capsule whose payload is fully buffered
always decodes successfully (the `Err` branch on the payload read is
unreachable). -/
theorem capsule_decode_datagram_read_total (usizeMax : Nat) (d d1 d2 : Decoder)
    (ty len : Nat) (h1 : d.decodeVarint = some (ty, d1))
    (h2 : d1.decodeVarint = some (len, d2)) (hty : ty = CAPSULE_TYPE_DATAGRAM)
    (hov : len ≤ usizeMax) (hrem : len ≤ d2.remaining) :
    Capsule.decode usizeMax d
      = .ok (some (.Datagram (d2.rest.take len)),
          Decoder.mk d2.buf (d2.offset + len)) := by
  rw [Capsule.decode_eq_of_varints h1 h2, if_neg (by omega), if_neg (by omega),
    if_pos hty, Decoder.decode, if_neg (by omega)]

/-- C6 (amended): `Frame::decode` with `data = None` returns `Ok(None)` for
every frame type and length; and when `frame_type` is the Datagram constant
and `data = Some(payload)`, a capsule-codec result of
`Ok(Some(Datagram p))` is wrapped as `Ok(Some(Frame::Datagram p))` with the
identical payload, while a codec `Err` is propagated unchanged. -/
theorem frame_decode_wraps_capsule :
    (∀ (usizeMax : Nat) (ft : HFrameType) (frame_len : Nat),
      ConnectUdp.Frame.decode usizeMax ft frame_len none = .ok none) ∧
    (∀ (usizeMax frame_len : Nat) (payload p : List Nat) (d' : Decoder),
      Capsule.decode usizeMax (Decoder.fromList payload)
          = .ok (some (.Datagram p), d') →
      ConnectUdp.Frame.decode usizeMax ConnectUdp.CAPSULE_TYPE_DATAGRAM
          frame_len (some payload) = .ok (some (.Datagram p))) ∧
    (∀ (usizeMax frame_len : Nat) (payload : List Nat) (e : Error),
      Capsule.decode usizeMax (Decoder.fromList payload) = .error e →
      ConnectUdp.Frame.decode usizeMax ConnectUdp.CAPSULE_TYPE_DATAGRAM
          frame_len (some payload) = .error e) := by
  refine ⟨?_, ?_, ?_⟩
  · intro u ft l
    rw [ConnectUdp.Frame.decode.eq_def]
    split
    · rfl
    · rfl
  · intro u l payload p d' h
    simp [ConnectUdp.Frame.decode, h]
  · intro u l payload e h
    simp [ConnectUdp.Frame.decode, h]

/-- C6 counterexample: the claim quantifies its second clause over every
frame type, but with a non-Datagram frame type `Frame::decode` returns
`Ok(None)` even though the capsule codec yields `Ok(Some(Datagram []))` on
the same payload. -/
theorem frame_decode_requires_datagram_type :
    Capsule.decode USIZE_MAX (Decoder.fromList [0, 0])
        = .ok (some (.Datagram []), Decoder.mk [0, 0] 2)
      ∧ ConnectUdp.Frame.decode USIZE_MAX ⟨0x01⟩ 2 (some [0, 0]) = .ok none
      ∧ ConnectUdp.Frame.decode USIZE_MAX ⟨0x01⟩ 2 (some [0, 0])
          ≠ .ok (some (.Datagram [])) := by
  refine ⟨rfl, rfl, ?_⟩
  intro hc
  rw [show ConnectUdp.Frame.decode USIZE_MAX ⟨0x01⟩ 2 (some [0, 0])
    = .ok none from rfl] at hc
  exact Option.noConfusion (Except.ok.inj hc)

/-- C7: whenever `Capsule::decode` yields `Ok(Some(Datagram p))`, the payload
`p` has exactly the declared capsule length, and it is a copy of exactly the
input bytes at the cursor (the `capsule_length` bytes after the two
varints). -/
theorem capsule_decode_payload_length_exact (usizeMax : Nat) (d : Decoder)
    (p : List Nat) (d' : Decoder)
    (h : Capsule.decode usizeMax d = .ok (some (.Datagram p), d')) :
    ∃ ty len d1 d2, d.decodeVarint = some (ty, d1)
      ∧ d1.decodeVarint = some (len, d2)
      ∧ p.length = len ∧ p = d2.rest.take len
      ∧ d' = Decoder.mk d2.buf (d2.offset + len) := by
  cases hv1 : d.decodeVarint with
  | none =>
    rw [Capsule.decode_none_of_first hv1] at h
    exact absurd h (by simp)
  | some x =>
    obtain ⟨ty, d1⟩ := x
    cases hv2 : d1.decodeVarint with
    | none =>
      rw [Capsule.decode_none_of_second hv1 hv2] at h
      exact absurd h (by simp)
    | some y =>
      obtain ⟨len, d2⟩ := y
      rw [Capsule.decode_eq_of_varints hv1 hv2] at h
      by_cases hov : usizeMax < len
      · rw [if_pos hov] at h
        exact absurd h (by simp)
      · rw [if_neg hov] at h
        by_cases hrem : d2.remaining < len
        · rw [if_pos hrem] at h
          exact absurd h (by simp)
        · rw [if_neg hrem] at h
          by_cases hty : ty = CAPSULE_TYPE_DATAGRAM
          · rw [if_pos hty, Decoder.decode, if_neg hrem] at h
            simp only [Except.ok.injEq, Prod.mk.injEq, Option.some.injEq,
              Capsule.Datagram.injEq] at h
            obtain ⟨hp, hd⟩ := h
            refine ⟨ty, len, d1, d2, rfl, hv2, ?_, hp.symm, hd.symm⟩
            rw [← hp, List.length_take]
            rw [Decoder.remaining_eq_rest_length] at hrem
            omega
          · rw [if_neg hty] at h
            exact absurd h (by simp)

/-! ### Witnesses -/

/-- Witness for C1 at type `0x17`, payload `[0xAA, 0xBB]`, prefix length 2. -/
theorem capsule_decode_truncation_safe_witness :
    (0x17 : Nat) < 2 ^ 62
      ∧ ([0xAA, 0xBB] : List Nat).length < 2 ^ 62
      ∧ 2 < (encodeVarint 0x17
          ++ encodeVarint ([0xAA, 0xBB] : List Nat).length
          ++ [0xAA, 0xBB]).length
      ∧ ∃ d', Capsule.decode USIZE_MAX
          (Decoder.fromList ((encodeVarint 0x17
            ++ encodeVarint ([0xAA, 0xBB] : List Nat).length
            ++ [0xAA, 0xBB]).take 2))
        = .ok (none, d') :=
  ⟨by decide, by decide, by decide,
    capsule_decode_truncation_safe 0x17 [0xAA, 0xBB] 2 (by decide) (by decide)
      (by decide)⟩

/-- Witness for C2 at payload `[1, 2, 3]`. -/
theorem capsule_encode_decode_roundtrip_witness :
    ([1, 2, 3] : List Nat).length < 2 ^ 62
      ∧ ∃ d', Capsule.decode USIZE_MAX
          (Decoder.fromList (Capsule.encode (.Datagram [1, 2, 3])))
        = .ok (some (.Datagram [1, 2, 3]), d') ∧ d'.remaining = 0 :=
  ⟨by decide, capsule_encode_decode_roundtrip [1, 2, 3] (by decide)⟩

/-- Witness for C3 at the spec's scenario: type `0x17`, payload
`[0xAA, 0xBB, 0xCC, 0xDD]`, no trailing bytes. -/
theorem capsule_decode_unknown_type_skip_witness :
    Capsule.decode USIZE_MAX
        (Decoder.fromList
          (encodeVarint 0x17
            ++ encodeVarint ([0xAA, 0xBB, 0xCC, 0xDD] : List Nat).length
            ++ [0xAA, 0xBB, 0xCC, 0xDD] ++ []))
      = .ok (none,
          Decoder.mk
            (encodeVarint 0x17
              ++ encodeVarint ([0xAA, 0xBB, 0xCC, 0xDD] : List Nat).length
              ++ [0xAA, 0xBB, 0xCC, 0xDD] ++ [])
            ((encodeVarint 0x17).length
              + (encodeVarint
                  ([0xAA, 0xBB, 0xCC, 0xDD] : List Nat).length).length
              + ([0xAA, 0xBB, 0xCC, 0xDD] : List Nat).length)) :=
  capsule_decode_unknown_type_skip 0x17 [0xAA, 0xBB, 0xCC, 0xDD] []
    (by decide) (by decide) (by decide)

/-- Witness for C4 on a 32-bit platform (`usize::MAX = 2^32 − 1`) with a
capsule declaring length `2^32` (8-byte varint). -/
theorem capsule_decode_overflow_error_witness :
    Capsule.decode (2 ^ 32 - 1)
        (Decoder.fromList [0, 192, 0, 0, 1, 0, 0, 0, 0])
      = .error .HttpFrame :=
  capsule_decode_overflow_error (2 ^ 32 - 1)
    (Decoder.fromList [0, 192, 0, 0, 1, 0, 0, 0, 0])
    (Decoder.mk [0, 192, 0, 0, 1, 0, 0, 0, 0] 1)
    (Decoder.mk [0, 192, 0, 0, 1, 0, 0, 0, 0] 9) 0 (2 ^ 32)
    (by decide) (by decide) (by decide)

/-- Witness for C5 at frame type `0x01`. -/
theorem frame_adapter_type_filtering_witness :
    ConnectUdp.Frame.decode 7 ⟨0x01⟩ 3 (some [1, 2, 3]) = .ok none :=
  frame_adapter_type_filtering.2 7 ⟨0x01⟩ 3 (some [1, 2, 3]) (by decide)

/-- Witness for C6 (amended): the wrap case on `[0x00, 0x00]` and the error
propagation case on a 32-bit platform overflow. -/
theorem frame_decode_wraps_capsule_witness :
    ConnectUdp.Frame.decode USIZE_MAX ConnectUdp.CAPSULE_TYPE_DATAGRAM 2
        (some [0, 0]) = .ok (some (.Datagram []))
      ∧ ConnectUdp.Frame.decode (2 ^ 32 - 1) ConnectUdp.CAPSULE_TYPE_DATAGRAM
        9 (some [0, 192, 0, 0, 1, 0, 0, 0, 0]) = .error .HttpFrame :=
  ⟨frame_decode_wraps_capsule.2.1 USIZE_MAX 2 [0, 0] []
      (Decoder.mk [0, 0] 2) rfl,
    frame_decode_wraps_capsule.2.2 (2 ^ 32 - 1) 9
      [0, 192, 0, 0, 1, 0, 0, 0, 0] .HttpFrame rfl⟩

/-- Witness for C7 on `[0x00, 0x02, 9, 9]`. -/
theorem capsule_decode_payload_length_exact_witness :
    ∃ ty len d1 d2,
      (Decoder.fromList [0, 2, 9, 9]).decodeVarint = some (ty, d1)
      ∧ d1.decodeVarint = some (len, d2)
      ∧ ([9, 9] : List Nat).length = len
      ∧ ([9, 9] : List Nat) = d2.rest.take len
      ∧ Decoder.mk [0, 2, 9, 9] 4 = Decoder.mk d2.buf (d2.offset + len) :=
  capsule_decode_payload_length_exact USIZE_MAX
    (Decoder.fromList [0, 2, 9, 9]) [9, 9] (Decoder.mk [0, 2, 9, 9] 4) rfl

/-- Witness for C9 on `[0x00, 0x00]` (empty fully buffered payload). -/
theorem capsule_decode_datagram_read_total_witness :
    Capsule.decode USIZE_MAX (Decoder.fromList [0, 0])
      = .ok (some (.Datagram ((Decoder.mk [0, 0] 2).rest.take 0)),
          Decoder.mk (Decoder.mk [0, 0] 2).buf
            ((Decoder.mk [0, 0] 2).offset + 0)) :=
  capsule_decode_datagram_read_total USIZE_MAX (Decoder.fromList [0, 0])
    (Decoder.mk [0, 0] 1) (Decoder.mk [0, 0] 2) 0 0
    (by decide) (by decide) rfl (by decide) (by decide)

/-- Witness for C10 at payload `[1, 2]` with trailing bytes `[7, 8]`. -/
theorem capsule_decode_consumes_exactly_one_witness :
    ([1, 2] : List Nat).length < 2 ^ 62
      ∧ ∃ d', Capsule.decode USIZE_MAX
          (Decoder.fromList (Capsule.encode (.Datagram [1, 2]) ++ [7, 8]))
        = .ok (some (.Datagram [1, 2]), d')
        ∧ d'.buf = Capsule.encode (.Datagram [1, 2]) ++ [7, 8]
        ∧ d'.rest = [7, 8] :=
  ⟨by decide, capsule_decode_consumes_exactly_one [1, 2] [7, 8] (by decide)⟩

end Neqo
